import Mathlib

/-!
Verification of the certreplace repository (src/src/main.rs).

The development shallowly embeds the PEM replacement engine, the object
matchers and the backup logic of `main.rs` into Lean.  File contents are
byte lists (`List Nat`), file paths are opaque strings, and the filesystem
effects of `replace_pems` are modelled by an explicit state (`FSState`)
together with an oracle (`FSEnv`) deciding which I/O operations fail.
The data types of the missing `model` module (`Cert`, `PrivKey`,
`PEMLocator`, `PKIObject`) are reconstructed from their uses in `main.rs`
and from the spec's data model; the openssl values they wrap are abstracted
to the operations `main.rs` uses (serialization, public-key extraction,
public-key equality).
-/

/-- Kind of a PEM block, from the `PEMKind` enum used in `main.rs`
(`PEMKind::Cert`, `PEMKind::PrivKey`). -/
inductive PEMKind where
  | Cert
  | PrivKey
deriving DecidableEq

/-- Locator of a PEM block: file path, kind, and byte range `[start, stop)`.
The Rust field `end` is named `stop` here because `end` is a Lean keyword. -/
structure PEMLocator where
  path : String
  kind : PEMKind
  start : Nat
  stop : Nat
deriving DecidableEq

/-- Replacement PEM selected for a locator kind, from the `match locator.kind`
expression in `replace_pems`. -/
def pemFor (certPem pkeyPem : List Nat) (k : PEMKind) : List Nat :=
  match k with
  | PEMKind.Cert => certPem
  | PEMKind.PrivKey => pkeyPem

/-- One iteration of the replacement loop of `replace_pems`
(main.rs lines 249-261): clamp the shifted start and end of the locator at 0,
splice the replacement bytes over the byte range, and update the running
offset by the length drift.  The state is the pair (current content, offset). -/
def spliceStep (certPem pkeyPem : List Nat) (acc : List Nat × Int) (loc : PEMLocator) :
    List Nat × Int :=
  let content := acc.1
  let offset := acc.2
  let pem := pemFor certPem pkeyPem loc.kind
  let s : Nat := (max 0 ((loc.start : Int) + offset)).toNat
  let e : Nat := (max 0 ((loc.stop : Int) + offset)).toNat
  (content.take s ++ pem ++ content.drop e,
   offset + (pem.length : Int) - ((loc.stop : Int) - (loc.start : Int)))

/-- The full replacement loop of `replace_pems` on one file's content:
fold `spliceStep` over the file's locators with initial offset 0. -/
def replaceContent (certPem pkeyPem : List Nat) (pems : List PEMLocator)
    (content : List Nat) : List Nat :=
  (pems.foldl (spliceStep certPem pkeyPem) (content, 0)).1

/-- Well-formedness of a locator list against a content of length `len`,
starting after position `prev`: locators are ordered by ascending start,
non-overlapping (each starts at or after the previous stop), each span has
`start ≤ stop`, and each span lies within the content. -/
def locsWF (len : Nat) : Nat → List PEMLocator → Bool
  | _, [] => true
  | prev, l :: ls =>
    decide (prev ≤ l.start) && decide (l.start ≤ l.stop) && decide (l.stop ≤ len) &&
      locsWF len l.stop ls

/-- Intended result of replacement: the original bytes before each span,
the replacement bytes in place of each span, and the original tail after the
last span.  `prev` is the end of the previously replaced span. -/
def segments (certPem pkeyPem : List Nat) (content : List Nat) :
    Nat → List PEMLocator → List Nat
  | prev, [] => content.drop prev
  | prev, l :: ls =>
    (content.take l.start).drop prev ++ pemFor certPem pkeyPem l.kind ++
      segments certPem pkeyPem content l.stop ls

/-- Taking `xs.length + n` elements of `xs ++ ys` keeps all of `xs` and
`n` elements of `ys`. -/
theorem take_append_len {α : Type} (xs : List α) (ys : List α) (n : Nat) :
    (xs ++ ys).take (xs.length + n) = xs ++ ys.take n := by
  induction xs with
  | nil => simp
  | cons a t ih =>
    have h : t.length + 1 + n = (t.length + n) + 1 := by omega
    simp only [List.cons_append, List.length_cons, h, List.take_succ_cons, ih]

/-- Dropping `xs.length + n` elements of `xs ++ ys` drops all of `xs` and
`n` elements of `ys`. -/
theorem drop_append_len {α : Type} (xs : List α) (ys : List α) (n : Nat) :
    (xs ++ ys).drop (xs.length + n) = ys.drop n := by
  induction xs with
  | nil => simp
  | cons a t ih =>
    have h : t.length + 1 + n = (t.length + n) + 1 := by omega
    simp only [List.cons_append, List.length_cons, h, List.drop_succ_cons, ih]

/-- Key step lemma: starting from a state whose content is some already
rewritten prefix `done` followed by the untouched original bytes from `prev`
on, and whose offset is the length drift `done.length - prev`, one splice of
an in-bounds locator produces the same shape again, with the locator's span
replaced by its PEM bytes. -/
theorem spliceStep_shift (certPem pkeyPem content done : List Nat) (prev : Nat)
    (l : PEMLocator) (h1 : prev ≤ l.start) (h2 : l.start ≤ l.stop)
    (h3 : l.stop ≤ content.length) :
    spliceStep certPem pkeyPem (done ++ content.drop prev, (done.length : Int) - (prev : Int)) l
      = (done ++ (content.take l.start).drop prev ++ pemFor certPem pkeyPem l.kind
           ++ content.drop l.stop,
         ((done ++ (content.take l.start).drop prev
             ++ pemFor certPem pkeyPem l.kind).length : Int) - (l.stop : Int)) := by
  have hs0 : (0 : Int) ≤ (l.start : Int) + ((done.length : Int) - (prev : Int)) := by
    have : (prev : Int) ≤ (l.start : Int) := by exact_mod_cast h1
    omega
  have he0 : (0 : Int) ≤ (l.stop : Int) + ((done.length : Int) - (prev : Int)) := by
    have : (prev : Int) ≤ (l.stop : Int) := by exact_mod_cast le_trans h1 h2
    omega
  have hsv : (max 0 ((l.start : Int) + ((done.length : Int) - (prev : Int)))).toNat
      = done.length + (l.start - prev) := by
    rw [max_eq_right hs0]
    omega
  have hev : (max 0 ((l.stop : Int) + ((done.length : Int) - (prev : Int)))).toNat
      = done.length + (l.stop - prev) := by
    rw [max_eq_right he0]
    omega
  have htake : (done ++ content.drop prev).take (done.length + (l.start - prev))
      = done ++ (content.take l.start).drop prev := by
    rw [take_append_len]
    congr 1
    rw [List.drop_take]
  have hdrop : (done ++ content.drop prev).drop (done.length + (l.stop - prev))
      = content.drop l.stop := by
    rw [drop_append_len, List.drop_drop]
    congr 1
    omega
  have hlen : ((content.take l.start).drop prev).length = l.start - prev := by
    simp only [List.length_drop, List.length_take]
    omega
  simp only [spliceStep, hsv, hev, htake, hdrop, Prod.mk.injEq]
  refine ⟨by simp [List.append_assoc], ?_⟩
  simp only [List.length_append, hlen]
  push_cast
  omega

/-- Invariant lemma for the replacement loop: folding `spliceStep` over a
well-formed locator list, starting from an already rewritten prefix `done`
and matching offset, appends exactly the intended `segments` result. -/
theorem foldl_splice_segments (certPem pkeyPem content : List Nat) :
    ∀ (locs : List PEMLocator) (prev : Nat) (done : List Nat),
      locsWF content.length prev locs = true →
      (locs.foldl (spliceStep certPem pkeyPem)
          (done ++ content.drop prev, (done.length : Int) - (prev : Int))).1
        = done ++ segments certPem pkeyPem content prev locs := by
  intro locs
  induction locs with
  | nil =>
    intro prev done _
    simp [segments]
  | cons l ls ih =>
    intro prev done h
    simp only [locsWF, Bool.and_eq_true, decide_eq_true_eq] at h
    obtain ⟨⟨⟨h1, h2⟩, h3⟩, h4⟩ := h
    rw [List.foldl_cons,
      spliceStep_shift certPem pkeyPem content done prev l h1 h2 h3]
    have := ih l.stop
      (done ++ (content.take l.start).drop prev ++ pemFor certPem pkeyPem l.kind) h4
    rw [List.append_assoc, List.append_assoc] at this ⊢
    rw [this]
    simp [segments]

/-- C1: for a file whose matched locators are non-overlapping, ordered by
ascending start, and within the file's byte length, the replacement loop of
`replace_pems` (clamped shifted start/end, splice, offset update) yields
exactly the content in which every byte outside the original replaced spans
is the original byte and every replaced span is the serialized replacement
bytes for that locator's kind, as expressed by `segments`. -/
theorem replace_pems_offset_correct (certPem pkeyPem content : List Nat)
    (locs : List PEMLocator) (h : locsWF content.length 0 locs = true) :
    replaceContent certPem pkeyPem locs content
      = segments certPem pkeyPem content 0 locs := by
  have h0 := foldl_splice_segments certPem pkeyPem content locs 0 [] h
  simpa [replaceContent] using h0

/-- Witness for C1 at a concrete file: two locators, a longer certificate
replacement and a shorter private-key replacement. -/
theorem replace_pems_offset_correct_w :
    locsWF (List.length [0, 1, 2, 3, 4, 5, 6, 7, 8, 9]) 0
        [⟨"f", PEMKind.Cert, 1, 3⟩, ⟨"f", PEMKind.PrivKey, 5, 6⟩] = true ∧
    replaceContent [100, 101, 102] [200]
        [⟨"f", PEMKind.Cert, 1, 3⟩, ⟨"f", PEMKind.PrivKey, 5, 6⟩]
        [0, 1, 2, 3, 4, 5, 6, 7, 8, 9]
      = segments [100, 101, 102] [200] [0, 1, 2, 3, 4, 5, 6, 7, 8, 9] 0
          [⟨"f", PEMKind.Cert, 1, 3⟩, ⟨"f", PEMKind.PrivKey, 5, 6⟩] :=
  ⟨by decide,
   replace_pems_offset_correct [100, 101, 102] [200] [0, 1, 2, 3, 4, 5, 6, 7, 8, 9]
     [⟨"f", PEMKind.Cert, 1, 3⟩, ⟨"f", PEMKind.PrivKey, 5, 6⟩] (by decide)⟩

/-- Bounds check for every splice performed by the replacement loop: at each
iteration the shifted start is nonnegative, at most the shifted end, the
shifted end is at most the current content length, and the `max 0 _` clamps
leave both values unchanged.  The recursion follows the loop state exactly
via `spliceStep`. -/
def splicesOk (certPem pkeyPem : List Nat) : List Nat → Int → List PEMLocator → Bool
  | _, _, [] => true
  | content, offset, l :: ls =>
    decide ((0 : Int) ≤ (l.start : Int) + offset) &&
    decide ((l.start : Int) + offset ≤ (l.stop : Int) + offset) &&
    decide ((l.stop : Int) + offset ≤ (content.length : Int)) &&
    decide (max 0 ((l.start : Int) + offset) = (l.start : Int) + offset) &&
    decide (max 0 ((l.stop : Int) + offset) = (l.stop : Int) + offset) &&
    splicesOk certPem pkeyPem (spliceStep certPem pkeyPem (content, offset) l).1
      (spliceStep certPem pkeyPem (content, offset) l).2 ls

/-- Invariant lemma for the bounds check: starting from a rewritten prefix
`done` and matching offset, every splice of a well-formed locator list is in
bounds. -/
theorem splicesOk_invariant (certPem pkeyPem content : List Nat) :
    ∀ (locs : List PEMLocator) (prev : Nat) (done : List Nat),
      locsWF content.length prev locs = true →
      splicesOk certPem pkeyPem (done ++ content.drop prev)
        ((done.length : Int) - (prev : Int)) locs = true := by
  intro locs
  induction locs with
  | nil =>
    intro prev done _
    simp [splicesOk]
  | cons l ls ih =>
    intro prev done h
    simp only [locsWF, Bool.and_eq_true, decide_eq_true_eq] at h
    obtain ⟨⟨⟨h1, h2⟩, h3⟩, h4⟩ := h
    have hp : prev ≤ content.length := le_trans (le_trans h1 h2) h3
    have hc1 : (prev : Int) ≤ (l.start : Int) := by exact_mod_cast h1
    have hc2 : (l.start : Int) ≤ (l.stop : Int) := by exact_mod_cast h2
    have hc3 : (l.stop : Int) ≤ (content.length : Int) := by exact_mod_cast h3
    have hlen : ((done ++ content.drop prev).length : Int)
        = (done.length : Int) + ((content.length : Int) - (prev : Int)) := by
      simp only [List.length_append, List.length_drop]
      push_cast [Nat.cast_sub hp]
      ring
    simp only [splicesOk, Bool.and_eq_true, decide_eq_true_eq]
    refine ⟨⟨⟨⟨⟨by omega, by omega⟩, by rw [hlen]; omega⟩, by omega⟩, by omega⟩, ?_⟩
    rw [spliceStep_shift certPem pkeyPem content done prev l h1 h2 h3]
    exact ih l.stop
      (done ++ (content.take l.start).drop prev ++ pemFor certPem pkeyPem l.kind) h4

/-- C9: under the precondition that a file's locators are non-overlapping,
ordered by ascending start, and within the content's length, every slice
taken by the replacement loop of `replace_pems` is in bounds: the shifted
start and end are nonnegative, ordered, and at most the current content
length, so the `max 0 _` clamps never alter the values and the splices never
cut beyond the content. -/
theorem replace_pems_splices_in_bounds (certPem pkeyPem content : List Nat)
    (locs : List PEMLocator) (h : locsWF content.length 0 locs = true) :
    splicesOk certPem pkeyPem content 0 locs = true := by
  have h0 := splicesOk_invariant certPem pkeyPem content locs 0 [] h
  simpa using h0

/-- Witness for C9 at a concrete file with two well-formed locators. -/
theorem replace_pems_splices_in_bounds_w :
    locsWF (List.length [7, 7, 7, 7, 7, 7, 7, 7]) 0
        [⟨"f", PEMKind.Cert, 0, 2⟩, ⟨"f", PEMKind.PrivKey, 4, 8⟩] = true ∧
    splicesOk [1, 2, 3] [9] [7, 7, 7, 7, 7, 7, 7, 7] 0
        [⟨"f", PEMKind.Cert, 0, 2⟩, ⟨"f", PEMKind.PrivKey, 4, 8⟩] = true :=
  ⟨by decide,
   replace_pems_splices_in_bounds [1, 2, 3] [9] [7, 7, 7, 7, 7, 7, 7, 7]
     [⟨"f", PEMKind.Cert, 0, 2⟩, ⟨"f", PEMKind.PrivKey, 4, 8⟩] (by decide)⟩

/-- Abstract public key value.  Modelled from the spec: the openssl public
key objects compared by `public_eq` are opaque here; only equality matters. -/
abbrev PubKey := Nat

/-- Decoded certificate value (the openssl `X509` wrapped by `Cert.cert`).
Modelled from the spec: the repository's `model` module is not under `src/`,
so the decoded value is abstracted to the two operations `main.rs` uses:
`public_key()` (which can fail, hence `Option`) and `to_pem()`. -/
structure X509 where
  pubkey : Option PubKey
  pem : List Nat
deriving DecidableEq

/-- A parsed certificate: subject common name, decoded value, and source
locator, as used by `main.rs` (`cert.common_name`, `cert.cert`,
`cert.locator`). -/
structure Cert where
  common_name : String
  cert : X509
  locator : PEMLocator
deriving DecidableEq

/-- Decoded private key value (the openssl `PKey<Private>` wrapped by
`PrivKey.key`).  Modelled from the spec: `public_eq` compares only the
public component, so the value is split into a public part and the remaining
private material; `private_key_to_pem_pkcs8()` is the `pem_pkcs8` field. -/
structure PKeyVal where
  pub_part : PubKey
  priv_material : Nat
  pem_pkcs8 : List Nat
deriving DecidableEq

/-- Public-key equality of a private key against a public key.  Modelled from
the spec: two keys match when their public components are equal, independent
of the private material. -/
def PKeyVal.public_eq (k : PKeyVal) (p : PubKey) : Bool :=
  decide (k.pub_part = p)

/-- A parsed private key: decoded value and source locator, as used by
`main.rs` (`pkey.key`, `privkey.locator`). -/
structure PrivKey where
  key : PKeyVal
  locator : PEMLocator
deriving DecidableEq

/-- Tagged union of parsed PKI objects, from the `PKIObject` enum used in
`main.rs` (`PKIObject::Cert`, `PKIObject::PrivKey`). -/
inductive PKIObject where
  | Cert (c : Cert)
  | PrivKey (k : PrivKey)
deriving DecidableEq

/-- The certificates of a pool of parsed PKI objects, in pool order (the
`certs.push` loop of `choose_cert` with no common-name filter). -/
def certsOf (pkis : List PKIObject) : List Cert :=
  pkis.filterMap (fun pki =>
    match pki with
    | PKIObject.Cert c => some c
    | PKIObject.PrivKey _ => none)

/-- The private keys of a pool of parsed PKI objects, in pool order. -/
def privkeysOf (pkis : List PKIObject) : List PrivKey :=
  pkis.filterMap (fun pki =>
    match pki with
    | PKIObject.PrivKey k => some k
    | PKIObject.Cert _ => none)

/-- Selection logic of `choose_cert` (main.rs lines 90-130) over an already
parsed pool: with no common name, collect all certificates; with a common
name, collect the certificates whose common name equals it; succeed exactly
when one certificate was collected (`certs.len() == 1`, returning the one
element `certs.pop()` yields).  The file read and parse of the Rust function
(`parse_pkiobjs`, in the missing `parse` module) is abstracted away: the
function takes the parsed pool directly. -/
def choose_cert (pkis : List PKIObject) (cn : Option String) : Except String Cert :=
  match cn with
  | none =>
    let certs := pkis.filterMap (fun pki =>
      match pki with
      | PKIObject.Cert c => some c
      | PKIObject.PrivKey _ => none)
    match certs with
    | [c] => Except.ok c
    | _ => Except.error
        "Certificate file does not contain exactly one certificate, so a common name must be provided."
  | some n =>
    let certs := pkis.filterMap (fun pki =>
      match pki with
      | PKIObject.Cert c => if c.common_name = n then some c else none
      | PKIObject.PrivKey _ => none)
    match certs with
    | [c] => Except.ok c
    | _ => Except.error
        ("Certificate file does not contain exactly one certificate with common name: " ++ n)

/-- Selection logic of `choose_privkey` (main.rs lines 134-168) over an
already parsed pool: derive the reference certificate's public key (failure
modelled by `Option`), collect the private keys whose public component
equals it, and succeed exactly when one key was collected. -/
def choose_privkey (pkis : List PKIObject) (cert : Cert) : Except String PrivKey :=
  match cert.cert.pubkey with
  | some pubkey =>
    let privkeys := pkis.filterMap (fun pki =>
      match pki with
      | PKIObject.PrivKey pkey => if pkey.key.public_eq pubkey then some pkey else none
      | PKIObject.Cert _ => none)
    match privkeys with
    | [k] => Except.ok k
    | _ => Except.error
        ("Provided file does not contain exactly one private key match cert with common name: "
          ++ cert.common_name)
  | none =>
    Except.error
      ("Failed to get public key from provided certificate, cn: " ++ cert.common_name)

/-- Predicate a certificate must satisfy to match an optional common name:
with no name, every certificate matches; with a name, the common name must
be equal (byte-equal, case-sensitive, since `String` equality is). -/
def matchesCN (cn : Option String) (c : Cert) : Bool :=
  match cn with
  | none => true
  | some n => decide (c.common_name = n)

/-- Fused collection of matching certificates equals filtering the pool's
certificates. -/
theorem filterMap_cert_filter (pkis : List PKIObject) (n : String) :
    pkis.filterMap (fun pki =>
      match pki with
      | PKIObject.Cert c => if c.common_name = n then some c else none
      | PKIObject.PrivKey _ => none)
      = (certsOf pkis).filter (fun c => decide (c.common_name = n)) := by
  induction pkis with
  | nil => simp [certsOf]
  | cons pki rest ih =>
    cases pki with
    | Cert c =>
      by_cases hc : c.common_name = n <;>
        simp [certsOf, List.filterMap_cons, List.filter_cons, hc] <;>
        simpa [certsOf] using ih
    | PrivKey k =>
      simpa [certsOf, List.filterMap_cons] using ih

/-- Fused collection of matching private keys equals filtering the pool's
private keys by public-component equality. -/
theorem filterMap_privkey_filter (pkis : List PKIObject) (p : PubKey) :
    pkis.filterMap (fun pki =>
      match pki with
      | PKIObject.PrivKey pkey => if pkey.key.public_eq p then some pkey else none
      | PKIObject.Cert _ => none)
      = (privkeysOf pkis).filter (fun pk => pk.key.public_eq p) := by
  induction pkis with
  | nil => simp [privkeysOf]
  | cons pki rest ih =>
    cases pki with
    | Cert c =>
      simpa [privkeysOf, List.filterMap_cons] using ih
    | PrivKey k =>
      cases hb : k.key.public_eq p <;>
        simp only [privkeysOf, List.filterMap_cons, List.filter_cons, hb] <;>
        simp only [privkeysOf] at ih <;>
        simp [ih]

/-- C3: over every pool of parsed PKI objects, `choose_cert` with no common
name succeeds exactly when the pool contains exactly one certificate, and
with a common name succeeds exactly when exactly one certificate's common
name equals it (String equality, hence case-sensitive and byte-equal),
returning that unique certificate; in every other case it returns an error. -/
theorem choose_cert_exact_match (pkis : List PKIObject) (cn : Option String) :
    (∀ c, choose_cert pkis cn = Except.ok c ↔
        (certsOf pkis).filter (matchesCN cn) = [c])
    ∧ ((∃ e, choose_cert pkis cn = Except.error e) ↔
        ((certsOf pkis).filter (matchesCN cn)).length ≠ 1) := by
  cases cn with
  | none =>
    have hm : (certsOf pkis).filter (matchesCN none) = certsOf pkis := by
      simp [matchesCN]
    have hu : choose_cert pkis none = (match certsOf pkis with
      | [c] => Except.ok c
      | _ => Except.error
          "Certificate file does not contain exactly one certificate, so a common name must be provided.") :=
      rfl
    rw [hm, hu]
    cases hcerts : certsOf pkis with
    | nil => simp
    | cons a t =>
      cases t with
      | nil => simp [eq_comm]
      | cons b t2 => simp
  | some n =>
    have hm : matchesCN (some n) = fun c => decide (c.common_name = n) := rfl
    have hu : choose_cert pkis (some n)
        = (match (certsOf pkis).filter (fun c => decide (c.common_name = n)) with
          | [c] => Except.ok c
          | _ => Except.error
              ("Certificate file does not contain exactly one certificate with common name: " ++ n)) := by
      simp only [choose_cert, filterMap_cert_filter]
    rw [hm, hu]
    cases hcerts : (certsOf pkis).filter (fun c => decide (c.common_name = n)) with
    | nil => simp
    | cons a t =>
      cases t with
      | nil => simp [eq_comm]
      | cons b t2 => simp

/-- Concrete pool shared by the matcher witnesses: one certificate with
common name "svc1" and one private key whose public component matches it. -/
def certW : Cert := ⟨"svc1", ⟨some 5, [1]⟩, ⟨"c.pem", PEMKind.Cert, 0, 1⟩⟩

/-- Concrete matching private key for the matcher witnesses. -/
def keyW : PrivKey := ⟨⟨5, 77, [2]⟩, ⟨"k.pem", PEMKind.PrivKey, 0, 1⟩⟩

/-- Concrete pool for the matcher witnesses. -/
def poolW : List PKIObject := [PKIObject.Cert certW, PKIObject.PrivKey keyW]

/-- Witness for C3 at a concrete pool: the unique certificate with common
name "svc1" is chosen. -/
theorem choose_cert_exact_match_w :
    choose_cert poolW (some "svc1") = Except.ok certW :=
  ((choose_cert_exact_match poolW (some "svc1")).1 certW).mpr (by decide)

/-- C4: over every pool of parsed PKI objects and reference certificate,
`choose_privkey` filters the pool's private keys by public-key equality
against the certificate's public key (`public_eq` ignores the private
material), succeeds exactly when one key matches, and every error message
names the certificate's common name. -/
theorem choose_privkey_pubkey_match (pkis : List PKIObject) (cert : Cert) :
    (∀ k, choose_privkey pkis cert = Except.ok k ↔
        ∃ p, cert.cert.pubkey = some p ∧
          (privkeysOf pkis).filter (fun pk => pk.key.public_eq p) = [k])
    ∧ (∀ e, choose_privkey pkis cert = Except.error e → ∃ m, e = m ++ cert.common_name)
    ∧ ((∃ e, choose_privkey pkis cert = Except.error e) ↔
        (cert.cert.pubkey = none ∨ ∃ p, cert.cert.pubkey = some p ∧
          ((privkeysOf pkis).filter (fun pk => pk.key.public_eq p)).length ≠ 1))
    ∧ (∀ (k1 k2 : PKeyVal) (p : PubKey), k1.pub_part = k2.pub_part →
        k1.public_eq p = k2.public_eq p) := by
  have hlast : ∀ (k1 k2 : PKeyVal) (p : PubKey), k1.pub_part = k2.pub_part →
      k1.public_eq p = k2.public_eq p := by
    intro k1 k2 p h
    simp [PKeyVal.public_eq, h]
  cases hpk : cert.cert.pubkey with
  | none =>
    have hu : choose_privkey pkis cert = Except.error
        ("Failed to get public key from provided certificate, cn: " ++ cert.common_name) := by
      simp only [choose_privkey, hpk]
    refine ⟨?_, ?_, ?_, hlast⟩
    · intro k
      simp [hu, hpk]
    · intro e he
      rw [hu] at he
      exact ⟨_, (Except.error.injEq _ _ ▸ he).symm⟩
    · simp [hu, hpk]
  | some p0 =>
    have hu : choose_privkey pkis cert
        = (match (privkeysOf pkis).filter (fun pk => pk.key.public_eq p0) with
          | [k] => Except.ok k
          | _ => Except.error
              ("Provided file does not contain exactly one private key match cert with common name: "
                ++ cert.common_name)) := by
      simp only [choose_privkey, hpk, filterMap_privkey_filter]
    refine ⟨?_, ?_, ?_, hlast⟩
    · intro k
      rw [hu]
      cases hfilter : (privkeysOf pkis).filter (fun pk => pk.key.public_eq p0) with
      | nil => simp [hpk, hfilter]
      | cons a t =>
        cases t with
        | nil => simp [hpk, hfilter, eq_comm]
        | cons b t2 => simp [hpk, hfilter]
    · intro e he
      rw [hu] at he
      cases hfilter : (privkeysOf pkis).filter (fun pk => pk.key.public_eq p0) with
      | nil =>
        rw [hfilter] at he
        exact ⟨_, (Except.error.injEq _ _ ▸ he).symm⟩
      | cons a t =>
        cases t with
        | nil =>
          rw [hfilter] at he
          simp at he
        | cons b t2 =>
          rw [hfilter] at he
          exact ⟨_, (Except.error.injEq _ _ ▸ he).symm⟩
    · rw [hu]
      cases hfilter : (privkeysOf pkis).filter (fun pk => pk.key.public_eq p0) with
      | nil => simp [hpk, hfilter]
      | cons a t =>
        cases t with
        | nil => simp [hpk, hfilter]
        | cons b t2 => simp [hpk, hfilter]

/-- Witness for C4 at a concrete pool: the unique private key whose public
component equals the certificate's public key is chosen. -/
theorem choose_privkey_pubkey_match_w :
    choose_privkey poolW certW = Except.ok keyW :=
  ((choose_privkey_pubkey_match poolW certW).1 keyW).mpr ⟨5, rfl, by decide⟩

/-- First-match lookup in an association list keyed by path, modelling
`HashMap::get` on string keys. -/
def lookupKey {β : Type} (p : String) : List (String × β) → Option β
  | [] => none
  | (q, v) :: rest => if q = p then some v else lookupKey p rest

/-- Lookup distributes over append: the second list is consulted only when
the key is absent from the first. -/
theorem lookupKey_append {β : Type} (p : String) :
    ∀ (l1 l2 : List (String × β)),
      lookupKey p (l1 ++ l2)
        = (match lookupKey p l1 with
           | some v => some v
           | none => lookupKey p l2) := by
  intro l1 l2
  induction l1 with
  | nil => simp [lookupKey]
  | cons kv t ih =>
    by_cases hq : kv.1 = p <;>
      simp [lookupKey, hq, ih]

/-- One step of `pems_by_path` (main.rs lines 201-210): insert an empty
group for the locator's path when absent (`contains_key` check), then push
the locator onto its path's group. -/
def insert_pem (map : List (String × List PEMLocator)) (pem : PEMLocator) :
    List (String × List PEMLocator) :=
  (if map.any (fun kv => decide (kv.1 = pem.path)) then map else map ++ [(pem.path, [])]).map
    (fun kv => if kv.1 = pem.path then (kv.1, kv.2 ++ [pem]) else kv)

/-- Grouping of locators by file path, from `pems_by_path` in `main.rs`.
The Rust function returns a `HashMap`; the model keeps the groups in an
association list in key-insertion order, a fixed admissible iteration order
of the hash map. -/
def pems_by_path (pems : List PEMLocator) : List (String × List PEMLocator) :=
  pems.foldl insert_pem []

/-- Lookup after the push step of `insert_pem`: the payload of the found
entry gains the pushed locator exactly when the key is the locator's path. -/
theorem lookupKey_map_push (pm : PEMLocator) (p : String) :
    ∀ (l : List (String × List PEMLocator)),
      lookupKey p (l.map (fun kv => if kv.1 = pm.path then (kv.1, kv.2 ++ [pm]) else kv))
        = (lookupKey p l).map (fun g => if p = pm.path then g ++ [pm] else g) := by
  intro l
  induction l with
  | nil => simp [lookupKey]
  | cons kv t ih =>
    obtain ⟨q, v⟩ := kv
    by_cases hq2 : q = pm.path
    · have hhead : (if (q, v).1 = pm.path then ((q, v).1, (q, v).2 ++ [pm]) else (q, v))
          = (q, v ++ [pm]) := by
        simp [hq2]
      by_cases hq : q = p
      · subst hq
        rw [List.map_cons, hhead]
        simp [lookupKey, hq2]
      · rw [List.map_cons, hhead]
        simp [lookupKey, hq, ih]
    · have hhead : (if (q, v).1 = pm.path then ((q, v).1, (q, v).2 ++ [pm]) else (q, v))
          = (q, v) := by
        simp [hq2]
      by_cases hq : q = p
      · subst hq
        rw [List.map_cons, hhead]
        simp [lookupKey, hq2]
      · rw [List.map_cons, hhead]
        simp [lookupKey, hq, ih]

/-- The `contains_key` check of `pems_by_path` agrees with lookup. -/
theorem any_key_eq_isSome {β : Type} (p : String) :
    ∀ (l : List (String × β)),
      l.any (fun kv => decide (kv.1 = p)) = (lookupKey p l).isSome := by
  intro l
  induction l with
  | nil => simp [lookupKey]
  | cons kv t ih =>
    by_cases hq : kv.1 = p <;>
      simp [lookupKey, hq, ih]

/-- Grouping lemma for `pems_by_path`: folding `insert_pem` over the locator
list extends the group of each path by exactly the locators of that path, in
their original relative order. -/
theorem pems_by_path_lookup (p : String) :
    ∀ (pems : List PEMLocator) (acc : List (String × List PEMLocator)),
      lookupKey p (pems.foldl insert_pem acc)
        = (match lookupKey p acc with
           | some g => some (g ++ pems.filter (fun l => decide (l.path = p)))
           | none =>
             if pems.filter (fun l => decide (l.path = p)) = [] then none
             else some (pems.filter (fun l => decide (l.path = p)))) := by
  intro pems
  induction pems with
  | nil =>
    intro acc
    cases hacc : lookupKey p acc <;> simp [hacc]
  | cons pm rest ih =>
    intro acc
    rw [List.foldl_cons, ih (insert_pem acc pm)]
    have hstep : lookupKey p (insert_pem acc pm)
        = (lookupKey p
            (if acc.any (fun kv => decide (kv.1 = pm.path)) then acc else acc ++ [(pm.path, [])])).map
            (fun g => if p = pm.path then g ++ [pm] else g) := by
      rw [insert_pem, lookupKey_map_push]
    by_cases hc : pm.path = p
    · subst hc
      cases hacc : lookupKey pm.path acc with
      | some g =>
        have hany : acc.any (fun kv => decide (kv.1 = pm.path)) = true := by
          rw [any_key_eq_isSome, hacc]
          rfl
        rw [hstep]
        simp [hany, hacc, List.filter_cons, List.append_assoc]
      | none =>
        have hany : acc.any (fun kv => decide (kv.1 = pm.path)) = false := by
          rw [any_key_eq_isSome, hacc]
          rfl
        rw [hstep]
        simp [hany, lookupKey_append, hacc, lookupKey, List.filter_cons]
    · have hc' : ¬ p = pm.path := fun h => hc (Eq.symm h)
      have hl : lookupKey p (insert_pem acc pm) = lookupKey p acc := by
        rw [hstep]
        by_cases hany : acc.any (fun kv => decide (kv.1 = pm.path))
        · cases hacc2 : lookupKey p acc <;> simp [hany, hacc2, hc']
        · cases hacc2 : lookupKey p acc <;>
            simp [hany, lookupKey_append, hacc2, lookupKey, hc, hc']
      rw [hl]
      cases hacc : lookupKey p acc <;> simp [hacc, List.filter_cons, hc]

/-- Ascending-start ordering of a locator list. -/
def sortedByStart : List PEMLocator → Bool
  | [] => true
  | [_] => true
  | a :: b :: rest => decide (a.start ≤ b.start) && sortedByStart (b :: rest)

/-- C2: `replace_pems` applies the locators of each file in the order they
arrived, without re-sorting: the group `pems_by_path` produces for a path is
exactly the subsequence of the input at that path (so it preserves the
input's relative order, in particular an ascending-start order), and the
replacement loop consumes the group by a left fold in exactly that order. -/
theorem pems_by_path_preserves_order (pems : List PEMLocator) (p : String)
    (g : List PEMLocator) (hg : lookupKey p (pems_by_path pems) = some g) :
    g = pems.filter (fun l => decide (l.path = p))
    ∧ (sortedByStart (pems.filter (fun l => decide (l.path = p))) = true →
        sortedByStart g = true)
    ∧ (∀ (cp kp content : List Nat),
        replaceContent cp kp g content = (g.foldl (spliceStep cp kp) (content, 0)).1) := by
  have h0 := pems_by_path_lookup p pems []
  rw [pems_by_path] at hg
  rw [hg] at h0
  simp only [lookupKey] at h0
  by_cases hemp : pems.filter (fun l => decide (l.path = p)) = []
  · rw [if_pos hemp] at h0
    exact absurd h0 (by simp)
  · rw [if_neg hemp] at h0
    have hgeq : g = pems.filter (fun l => decide (l.path = p)) :=
      Option.some.inj h0
    refine ⟨hgeq, ?_, ?_⟩
    · intro hs
      rw [hgeq]
      exact hs
    · intro cp kp content
      rfl

/-- Concrete locator list for the C2 witness. -/
def pemsW : List PEMLocator :=
  [⟨"x", PEMKind.Cert, 0, 1⟩, ⟨"y", PEMKind.Cert, 0, 1⟩, ⟨"x", PEMKind.PrivKey, 2, 3⟩]

/-- Concrete expected group for the C2 witness. -/
def groupW : List PEMLocator :=
  [⟨"x", PEMKind.Cert, 0, 1⟩, ⟨"x", PEMKind.PrivKey, 2, 3⟩]

/-- Witness for C2 at a concrete mixed-path locator list. -/
theorem pems_by_path_preserves_order_w :
    lookupKey "x" (pems_by_path pemsW) = some groupW ∧
    groupW = pemsW.filter (fun l => decide (l.path = "x")) :=
  ⟨by decide, (pems_by_path_preserves_order pemsW "x" groupW (by decide)).1⟩

/-- Failure oracle for the filesystem operations of `replace_pems`: which
paths fail to back up (`fs::copy`), to read (`fs::read`) and to write
(`fs::write`). -/
structure FSEnv where
  backupFails : List String
  readFails : List String
  writeFails : List String
deriving DecidableEq

/-- Filesystem state threaded through `replace_pems`: contents of regular
files by path, and contents of the created backups keyed by the path of the
file they back up. -/
structure FSState where
  files : List (String × List Nat)
  backups : List (String × List Nat)
deriving DecidableEq

/-- Overwrite (or create) a file's content, modelling `fs::write`. -/
def updateFile : List (String × List Nat) → String → List Nat → List (String × List Nat)
  | [], p, c => [(p, c)]
  | (q, d) :: rest, p, c =>
    if q = p then (q, c) :: rest else (q, d) :: updateFile rest p c

/-- The copy performed by `backup_file` (main.rs lines 271-283) at the
content level: it fails when the oracle says so or when the file does not
exist, and otherwise yields the file's full current content. -/
def backup_file (env : FSEnv) (files : List (String × List Nat)) (path : String) :
    Option (List Nat) :=
  if path ∈ env.backupFails then none
  else lookupKey path files

/-- The per-file loop of `replace_pems` (main.rs lines 228-267) over the
grouped locators: skip the replacement-source paths; back the file up,
abandoning (only) the file when backup fails; read it, returning from the
whole function when the read fails (the `return` on line 242); splice the
replacement PEMs; write the new content back, abandoning only the file when
the write fails. -/
def replace_pems_loop (env : FSEnv) (cert_pem pkey_pem : List Nat)
    (cert_path pkey_path : String) :
    FSState → List (String × List PEMLocator) → FSState
  | st, [] => st
  | st, (path, pems) :: rest =>
    if path = cert_path ∨ path = pkey_path then
      replace_pems_loop env cert_pem pkey_pem cert_path pkey_path st rest
    else
      match backup_file env st.files path with
      | none => replace_pems_loop env cert_pem pkey_pem cert_path pkey_path st rest
      | some c0 =>
        let st1 : FSState := ⟨st.files, st.backups ++ [(path, c0)]⟩
        if path ∈ env.readFails then
          st1
        else
          let newContent := replaceContent cert_pem pkey_pem pems c0
          if path ∈ env.writeFails then
            replace_pems_loop env cert_pem pkey_pem cert_path pkey_path st1 rest
          else
            replace_pems_loop env cert_pem pkey_pem cert_path pkey_path
              ⟨updateFile st1.files path newContent, st1.backups⟩ rest

/-- Entry point of `replace_pems` (main.rs lines 213-268): serialize the new
certificate once; serialize the new private key once when present, taking
its source path, and otherwise use the empty byte string and the empty path
(`PathBuf::new()`); then run the per-file loop over the locators grouped by
path.  Serialization failures panic in the source and are not modelled. -/
def replace_pems (env : FSEnv) (st : FSState) (targets : List PEMLocator)
    (cert : Cert) (privkey : Option PrivKey) : FSState :=
  let cert_pem := cert.cert.pem
  let pp : List Nat × String :=
    match privkey with
    | some pk => (pk.key.pem_pkcs8, pk.locator.path)
    | none => ([], "")
  replace_pems_loop env cert_pem pp.1 cert.locator.path pp.2 st (pems_by_path targets)

/-- Lookup after `updateFile`: the updated path holds the new content and
every other path is untouched. -/
theorem lookupKey_updateFile (p q : String) (c : List Nat) :
    ∀ (files : List (String × List Nat)),
      lookupKey p (updateFile files q c)
        = if q = p then some c else lookupKey p files := by
  intro files
  induction files with
  | nil => simp [updateFile, lookupKey]
  | cons kv rest ih =>
    obtain ⟨r, d⟩ := kv
    by_cases hr : r = q
    · subst hr
      by_cases hp : r = p <;> simp [updateFile, lookupKey, hp]
    · by_cases hp : r = p
      · subst hp
        have : ¬ q = r := fun h => hr (Eq.symm h)
        simp [updateFile, lookupKey, hr, this]
      · simp [updateFile, lookupKey, hr, hp, ih]

/-- Paths that appear in none of the remaining entries are untouched by the
per-file loop: their file content and their backups are unchanged. -/
theorem replace_pems_loop_untouched (env : FSEnv) (cp kp : List Nat) (cP kP : String) :
    ∀ (entries : List (String × List PEMLocator)) (st : FSState) (p : String),
      (∀ e ∈ entries, e.1 ≠ p) →
      lookupKey p (replace_pems_loop env cp kp cP kP st entries).files
          = lookupKey p st.files ∧
      lookupKey p (replace_pems_loop env cp kp cP kP st entries).backups
          = lookupKey p st.backups := by
  intro entries
  induction entries with
  | nil =>
    intro st p _
    exact ⟨rfl, rfl⟩
  | cons e rest ih =>
    intro st p hne
    obtain ⟨q, pems⟩ := e
    have hq : q ≠ p := hne (q, pems) (List.mem_cons_self _ _)
    have hrest : ∀ x ∈ rest, x.1 ≠ p := fun x hx => hne x (List.mem_cons_of_mem _ hx)
    by_cases hskip : q = cP ∨ q = kP
    · simp only [replace_pems_loop, if_pos hskip]
      exact ih st p hrest
    · cases hb : backup_file env st.files q with
      | none =>
        simp only [replace_pems_loop, if_neg hskip, hb]
        exact ih st p hrest
      | some c0 =>
        have happ : lookupKey p (st.backups ++ [(q, c0)]) = lookupKey p st.backups := by
          rw [lookupKey_append]
          cases hl : lookupKey p st.backups <;> simp [hl, lookupKey, hq]
        by_cases hread : q ∈ env.readFails
        · have heq : replace_pems_loop env cp kp cP kP st ((q, pems) :: rest)
              = ⟨st.files, st.backups ++ [(q, c0)]⟩ := by
            simp only [replace_pems_loop, if_neg hskip, hb, if_pos hread]
          rw [heq]
          exact ⟨rfl, happ⟩
        · by_cases hwrite : q ∈ env.writeFails
          · simp only [replace_pems_loop, if_neg hskip, hb, if_neg hread, if_pos hwrite]
            have hr := ih ⟨st.files, st.backups ++ [(q, c0)]⟩ p hrest
            exact ⟨hr.1, hr.2.trans happ⟩
          · simp only [replace_pems_loop, if_neg hskip, hb, if_neg hread, if_neg hwrite]
            have hr := ih ⟨updateFile st.files q (replaceContent cp kp pems c0),
                st.backups ++ [(q, c0)]⟩ p hrest
            refine ⟨hr.1.trans ?_, hr.2.trans happ⟩
            rw [lookupKey_updateFile]
            simp [hq]

/-- C7: a grouped target path equal to the path the new certificate or the
new private key originates from is skipped entirely by `replace_pems`: the
state passes through unchanged, and (when no later group has that path) the
run leaves the file's content unchanged and creates no backup for it. -/
theorem replace_pems_skips_source_paths (env : FSEnv) (cp kp : List Nat)
    (cP kP : String) (st : FSState) (path : String) (pems : List PEMLocator)
    (rest : List (String × List PEMLocator))
    (hsrc : path = cP ∨ path = kP) (hrest : ∀ e ∈ rest, e.1 ≠ path) :
    replace_pems_loop env cp kp cP kP st ((path, pems) :: rest)
        = replace_pems_loop env cp kp cP kP st rest
    ∧ lookupKey path (replace_pems_loop env cp kp cP kP st ((path, pems) :: rest)).files
        = lookupKey path st.files
    ∧ lookupKey path (replace_pems_loop env cp kp cP kP st ((path, pems) :: rest)).backups
        = lookupKey path st.backups := by
  have heq : replace_pems_loop env cp kp cP kP st ((path, pems) :: rest)
      = replace_pems_loop env cp kp cP kP st rest := by
    simp only [replace_pems_loop, if_pos hsrc]
  have hun := replace_pems_loop_untouched env cp kp cP kP rest st path hrest
  rw [heq]
  exact ⟨rfl, hun.1, hun.2⟩

/-- Concrete locator on file "a" for the replacement-engine witnesses. -/
def locA0 : PEMLocator := ⟨"a", PEMKind.Cert, 0, 1⟩

/-- Concrete locator on file "b" for the replacement-engine witnesses. -/
def locB0 : PEMLocator := ⟨"b", PEMKind.Cert, 0, 1⟩

/-- Concrete initial filesystem for the replacement-engine witnesses. -/
def stW0 : FSState := ⟨[("a", [1, 2, 3]), ("b", [4, 5, 6])], []⟩

/-- Failure-free oracle. -/
def envOk : FSEnv := ⟨[], [], []⟩

/-- Witness for C7: the source path "src" is skipped at a concrete state. -/
theorem replace_pems_skips_source_paths_w :
    replace_pems_loop envOk [9] [] "src" "" stW0 [("src", [⟨"src", PEMKind.Cert, 0, 1⟩]), ("b", [locB0])]
      = replace_pems_loop envOk [9] [] "src" "" stW0 [("b", [locB0])] :=
  (replace_pems_skips_source_paths envOk [9] [] "src" "" stW0 "src"
    [⟨"src", PEMKind.Cert, 0, 1⟩] [("b", [locB0])] (Or.inl rfl) (by decide)).1

/-- C6: for every target file of `replace_pems`, the backup is created
strictly before any mutation: a failed backup makes the loop continue with
the next file without reading or writing this one (state unchanged); a
successful backup captures exactly the file's pre-run content; and a fully
successful step records that pre-run content as the backup while writing the
spliced content, before continuing with the remaining files. -/
theorem replace_pems_backup_before_mutation (env : FSEnv) (cp kp : List Nat)
    (cP kP : String) (st : FSState) (path : String) (pems : List PEMLocator)
    (rest : List (String × List PEMLocator))
    (hskip : ¬(path = cP ∨ path = kP)) :
    (backup_file env st.files path = none →
        replace_pems_loop env cp kp cP kP st ((path, pems) :: rest)
          = replace_pems_loop env cp kp cP kP st rest)
    ∧ (∀ c0, backup_file env st.files path = some c0 →
        lookupKey path st.files = some c0)
    ∧ (∀ c0, backup_file env st.files path = some c0 →
        path ∉ env.readFails → path ∉ env.writeFails →
        replace_pems_loop env cp kp cP kP st ((path, pems) :: rest)
          = replace_pems_loop env cp kp cP kP
              ⟨updateFile st.files path (replaceContent cp kp pems c0),
               st.backups ++ [(path, c0)]⟩ rest) := by
  refine ⟨?_, ?_, ?_⟩
  · intro hb
    simp only [replace_pems_loop, if_neg hskip, hb]
  · intro c0 hb
    rw [backup_file] at hb
    by_cases hbf : path ∈ env.backupFails
    · rw [if_pos hbf] at hb
      exact absurd hb (by simp)
    · rw [if_neg hbf] at hb
      exact hb
  · intro c0 hb hread hwrite
    simp only [replace_pems_loop, if_neg hskip, hb, if_neg hread, if_neg hwrite]

/-- Witness for C6: a fully successful step on file "a" backs up the
pre-run bytes and writes the spliced content. -/
theorem replace_pems_backup_before_mutation_w :
    replace_pems_loop envOk [9] [] "src" "" stW0 [("a", [locA0])]
      = replace_pems_loop envOk [9] [] "src" ""
          ⟨updateFile stW0.files "a" (replaceContent [9] [] [locA0] [1, 2, 3]),
           stW0.backups ++ [("a", [1, 2, 3])]⟩ [] :=
  (replace_pems_backup_before_mutation envOk [9] [] "src" "" stW0 "a" [locA0] []
    (by decide)).2.2 [1, 2, 3] (by decide) (by decide) (by decide)

/-- C5 (amended): failure isolation of `replace_pems` per target file.  A
write failure abandons only that file: its content is unchanged (only the
backup was added) and the loop continues with the remaining files.  A read
failure, however, makes `replace_pems` return: that file's content is left
untouched, but no remaining file is processed either. -/
theorem replace_pems_failure_isolation (env : FSEnv) (cp kp : List Nat)
    (cP kP : String) (st : FSState) (path : String) (pems : List PEMLocator)
    (rest : List (String × List PEMLocator)) (c0 : List Nat)
    (hskip : ¬(path = cP ∨ path = kP))
    (hb : backup_file env st.files path = some c0) :
    (path ∈ env.readFails →
        replace_pems_loop env cp kp cP kP st ((path, pems) :: rest)
          = ⟨st.files, st.backups ++ [(path, c0)]⟩)
    ∧ (path ∉ env.readFails → path ∈ env.writeFails →
        replace_pems_loop env cp kp cP kP st ((path, pems) :: rest)
          = replace_pems_loop env cp kp cP kP
              ⟨st.files, st.backups ++ [(path, c0)]⟩ rest) := by
  refine ⟨?_, ?_⟩
  · intro hread
    simp only [replace_pems_loop, if_neg hskip, hb, if_pos hread]
  · intro hread hwrite
    simp only [replace_pems_loop, if_neg hskip, hb, if_neg hread, if_pos hwrite]

/-- Oracle of the C5 witness: writing file "a" fails. -/
def envWriteFail : FSEnv := ⟨[], [], ["a"]⟩

/-- Witness for the amended C5: a write failure on "a" leaves its content
unchanged and the loop continues with the remaining entries. -/
theorem replace_pems_failure_isolation_w :
    replace_pems_loop envWriteFail [9] [] "src" "" stW0 [("a", [locA0]), ("b", [locB0])]
      = replace_pems_loop envWriteFail [9] [] "src" ""
          ⟨stW0.files, stW0.backups ++ [("a", [1, 2, 3])]⟩ [("b", [locB0])] :=
  (replace_pems_failure_isolation envWriteFail [9] [] "src" "" stW0 "a" [locA0]
    [("b", [locB0])] [1, 2, 3] (by decide) (by decide)).2 (by decide) (by decide)

/-- Oracle of the C5 counterexample: reading file "a" fails. -/
def envReadFail : FSEnv := ⟨[], ["a"], []⟩

/-- Replacement certificate used by the C5 and C10 material: one byte of
PEM, originating from path "src". -/
def certC5 : Cert := ⟨"cn", ⟨some 1, [9]⟩, ⟨"src", PEMKind.Cert, 0, 0⟩⟩

/-- Counterexample to C5 as stated: with locators on files "a" and "b" and a
read failure on "a", `replace_pems` does not continue with the next target
file — "b" keeps its original content (which the replacement would have
changed) and is never even backed up. -/
theorem replace_pems_read_failure_cex :
    lookupKey "b" (replace_pems envReadFail stW0 [locA0, locB0] certC5 none).files
        = some [4, 5, 6]
    ∧ lookupKey "b" (replace_pems envReadFail stW0 [locA0, locB0] certC5 none).backups
        = none
    ∧ replaceContent certC5.cert.pem [] [locB0] [4, 5, 6] ≠ [4, 5, 6] := by decide

/-- C10: when `replace_pems` is called with no replacement private key, the
private-key replacement PEM is the empty byte string (and the private-key
source path is the empty path), so a locator of kind `PrivKey` is replaced
with zero bytes: its span is deleted from the content. -/
theorem replace_pems_no_privkey_deletes (env : FSEnv) (st : FSState)
    (targets : List PEMLocator) (cert : Cert) (content : List Nat)
    (loc : PEMLocator) (hk : loc.kind = PEMKind.PrivKey) :
    replace_pems env st targets cert none
        = replace_pems_loop env cert.cert.pem [] cert.locator.path "" st
            (pems_by_path targets)
    ∧ replaceContent cert.cert.pem [] [loc] content
        = content.take loc.start ++ content.drop loc.stop := by
  refine ⟨rfl, ?_⟩
  have hs : (max 0 ((loc.start : Int) + 0)).toNat = loc.start := by
    rw [add_zero, max_eq_right (Int.natCast_nonneg _)]
    exact Int.toNat_natCast _
  have he : (max 0 ((loc.stop : Int) + 0)).toNat = loc.stop := by
    rw [add_zero, max_eq_right (Int.natCast_nonneg _)]
    exact Int.toNat_natCast _
  simp [replaceContent, spliceStep, pemFor, hk, hs, he]

/-- Witness for C10: a private-key locator's span is deleted at a concrete
content. -/
theorem replace_pems_no_privkey_deletes_w :
    replaceContent certC5.cert.pem [] [⟨"a", PEMKind.PrivKey, 1, 3⟩] [0, 1, 2, 3, 4]
      = List.take 1 [0, 1, 2, 3, 4] ++ List.drop 3 [0, 1, 2, 3, 4] :=
  (replace_pems_no_privkey_deletes envOk stW0 [] certC5 [0, 1, 2, 3, 4]
    ⟨"a", PEMKind.PrivKey, 1, 3⟩ rfl).2

/-- File path decomposed into stem and optional extension, modelling the
parts of Rust's `PathBuf` that `backup_file` uses (`extension()` and
`set_extension`); the directory component plays no role in the naming. -/
structure PathBuf where
  stem : String
  ext : Option String
deriving DecidableEq

/-- The file name a `PathBuf` renders to: the stem, then a dot and the
extension when one is present. -/
def PathBuf.file_name (p : PathBuf) : String :=
  match p.ext with
  | none => p.stem
  | some e => p.stem ++ "." ++ e

/-- Rust's `PathBuf::set_extension` with a nonempty new extension: the old
extension (if any) is replaced, so the resulting file name is the stem
followed by a dot and the new extension. -/
def PathBuf.set_extension (p : PathBuf) (newExt : String) : String :=
  p.stem ++ "." ++ newExt

/-- The backup path computed by `backup_file` (main.rs lines 271-283):
take the original extension or the empty string, and set the extension to
`<ext>.<timestamp>.bkp`. -/
def bkp_path (p : PathBuf) (timestamp : String) : String :=
  p.set_extension ((match p.ext with | none => "" | some e => e) ++ "." ++ timestamp ++ ".bkp")

/-- Counterexample to C8 as stated: for a path with an extension, the
backup name is not the original file name with
`.<original-extension>.<timestamp>.bkp` appended — `set_extension` replaces
the extension instead of appending after it. -/
theorem backup_naming_cex :
    bkp_path ⟨"a", some "pem"⟩ "25-10-12-T10-00"
      ≠ PathBuf.file_name ⟨"a", some "pem"⟩ ++ "." ++ "pem" ++ "." ++ "25-10-12-T10-00"
          ++ ".bkp" := by decide

/-- C8 (amended): `backup_file` creates the backup at the original path with
its extension replaced by `<original-extension>.<timestamp>.bkp`, that is,
the original file name with the timestamped suffix appended when the path
has an extension, and the original file name with `.<empty>.<timestamp>.bkp`
appended when it has none; and the backup is a full copy of the original
file's content. -/
theorem backup_naming (p : PathBuf) (ts : String) :
    (∀ e, p.ext = some e →
        bkp_path p ts = p.file_name ++ ("." ++ ts ++ ".bkp"))
    ∧ (p.ext = none →
        bkp_path p ts = p.file_name ++ ("." ++ "" ++ "." ++ ts ++ ".bkp"))
    ∧ (∀ (env : FSEnv) (files : List (String × List Nat)) (q : String) (c : List Nat),
        q ∉ env.backupFails → lookupKey q files = some c →
        backup_file env files q = some c) := by
  refine ⟨?_, ?_, ?_⟩
  · intro e he
    simp only [bkp_path, PathBuf.set_extension, PathBuf.file_name, he]
    simp [String.append_assoc]
  · intro he
    simp only [bkp_path, PathBuf.set_extension, PathBuf.file_name, he]
    simp [String.append_assoc]
    congr 1
  · intro env files q c hbf hl
    rw [backup_file, if_neg hbf]
    exact hl

/-- Witness for the amended C8 at a path with an extension and one without. -/
theorem backup_naming_w :
    bkp_path ⟨"a", some "pem"⟩ "25-10-12-T10-00"
        = PathBuf.file_name ⟨"a", some "pem"⟩ ++ ("." ++ "25-10-12-T10-00" ++ ".bkp")
    ∧ bkp_path ⟨"hosts", none⟩ "25-10-12-T10-00"
        = PathBuf.file_name ⟨"hosts", none⟩ ++ ("." ++ "" ++ "." ++ "25-10-12-T10-00" ++ ".bkp") :=
  ⟨(backup_naming ⟨"a", some "pem"⟩ "25-10-12-T10-00").1 "pem" rfl,
   (backup_naming ⟨"hosts", none⟩ "25-10-12-T10-00").2.1 rfl⟩
